import Mathlib

/-!
Verification of the parallel BFS banana-relay solver (`src/main.rs`).

The source works over fixed-width machine integers (`u16` piles/held, `u64`
hashes, `usize` indices).  We model quantities as `Nat`; in every run the
source's values are bounded by the initial banana count `B` (fuel is consumed,
never created), so no `u16` wrap occurs for representable inputs and the `Nat`
model agrees with the machine arithmetic.  The one place where 64-bit
truncation matters — the FNV-1a hash — is modelled with an explicit `% 2 ^ 64`.

The worker loop is modelled at `W = 1` (a single worker owning every shard):
the barrier strictly separates rounds, a worker receives exactly one batch per
peer per round, and all successors of a round are inserted before the next
round begins, so the one-worker sequential loop processes exactly the
round-by-round attempt sequence of the source.  The round coordinator's
vote protocol is modelled separately, per round, using the ordering that the
source establishes with the barrier mutex (see `protoRun`).
-/

namespace Cammy

/-- `StateKey<D>` from the source: position `x` and the vector of ground
piles (one `u16` slot per position, modelled as `Nat`). -/
structure StateKey where
  x : Nat
  piles : List Nat
deriving DecidableEq

/-- `State<D>` from the source: canonical key plus the carried amount. -/
structure State where
  inner : StateKey
  held : Nat
deriving DecidableEq

/-- `StateMeta<D>` from the source: predecessor and the `held` recorded at
first discovery. -/
structure StateMeta where
  prev : Option State
  held : Nat
deriving DecidableEq

/-- `State::moves` from the source: no moves when `held == 0`; otherwise a
forward step (emitted first, guarded by `x + 1 < D`) and a backward step
(guarded by `x > 0`), each consuming one unit of fuel. -/
def State.moves (D : Nat) (s : State) : List State :=
  if s.held = 0 then []
  else
    (if s.inner.x + 1 < D then
      [{ inner := { x := s.inner.x + 1, piles := s.inner.piles }, held := s.held - 1 }]
    else [])
      ++
    (if 0 < s.inner.x then
      [{ inner := { x := s.inner.x - 1, piles := s.inner.piles }, held := s.held - 1 }]
    else [])

/-- `State::pickup::<C>` from the source: greedily pick up
`min(C - held, piles[x])` units from the pile at the current position.
(The source indexes `piles[x]` with `x` always in range; `getD _ 0` is that
access for in-range indices.) -/
def State.pickup (C : Nat) (s : State) : State :=
  let amt := min (C - s.held) (s.inner.piles.getD s.inner.x 0)
  { inner := { x := s.inner.x
               piles := s.inner.piles.set s.inner.x (s.inner.piles.getD s.inner.x 0 - amt) }
    held := s.held + amt }

/-- The body of the drop loop in `State::successors`: drop `amount` units
onto the pile at the current position. -/
def State.drop (s : State) (amount : Nat) : State :=
  { inner := { x := s.inner.x
               piles := s.inner.piles.set s.inner.x (s.inner.piles.getD s.inner.x 0 + amount) }
    held := s.held - amount }

/-- `State::successors::<C>` from the source: for each move, pick up greedily,
then emit one successor per drop amount in `0..=held`. -/
def State.successors (C D : Nat) (s : State) : List State :=
  (s.moves D).flatMap fun m =>
    (List.range ((m.pickup C).held + 1)).map fun amount => (m.pickup C).drop amount

/-- First-match association-list lookup, the map semantics of the shard's
`FnvHashMap<StateKey, StateMeta>`. -/
def lookupKey (k : StateKey) : List (StateKey × StateMeta) → Option StateMeta
  | [] => none
  | (k', m) :: rest => if k' = k then some m else lookupKey k rest

/-- `States<D>` from the source: one worker's shard of the visited table plus
its local solution record.  `assertOk` records that every occupied-entry
insertion so far satisfied the source's `assert!(e.get().held >= state.held)`
(the embedded form of that assertion: it starts `true` and is cleared exactly
when the source would panic). -/
structure States where
  inner : List (StateKey × StateMeta)
  bananas_sold : Nat
  solutions : List StateKey
  assertOk : Bool
deriving DecidableEq

/-- `States::insert` from the source: insert `{prev, held}` if the key is
vacant; on an occupied key check the assertion and discard.  Afterwards —
regardless of whether the insertion happened — update `bananas_sold` and
`solutions` when the state sits at the final position `D - 1`. -/
def States.insert (D : Nat) (s : States) (prev : Option State) (st : State) : States × Bool :=
  let key := st.inner
  let meta : StateMeta := { prev := prev, held := st.held }
  let pair :=
    match lookupKey key s.inner with
    | some m => ({ s with assertOk := s.assertOk && decide (st.held ≤ m.held) }, false)
    | none => ({ s with inner := s.inner ++ [(key, meta)] }, true)
  let s' := pair.1
  let s'' :=
    if key.x = D - 1 then
      if s'.bananas_sold < st.held then
        { s' with bananas_sold := st.held, solutions := [key] }
      else if st.held = s'.bananas_sold then
        { s' with solutions := s'.solutions ++ [key] }
      else s'
    else s'
  (s'', pair.2)

/-- One iteration of the receive loop in `Worker::run`: insert the received
`(prev, state)` pair, and push the state onto the next frontier exactly when
the insertion reports "newly inserted". -/
def receivePair (D : Nat) (acc : States × List State) (pr : State × State) : States × List State :=
  let out := acc.1.insert D (some pr.1) pr.2
  (out.1, if out.2 then acc.2 ++ [pr.2] else acc.2)

/-- One round of `Worker::run` at `W = 1`: expand every frontier state, then
receive all `(predecessor, successor)` pairs in generation order. -/
def stepRound (C D : Nat) (p : States × List State) : States × List State :=
  let succs := p.2.flatMap fun s => (s.successors C D).map fun t => (s, t)
  succs.foldl (receivePair D) (p.1, [])

/-- The worker loop: run rounds until the frontier is empty (fuel-bounded;
`B + 2` rounds always suffice, since each round consumes one unit of fuel
from every frontier state's total). -/
def runRounds (C D : Nat) : Nat → States × List State → States × List State
  | 0, p => p
  | fuel + 1, p => if p.2 = [] then p else runRounds C D fuel (stepRound C D p)

/-- The initial state built in `solve`: position `0`, `held = min(B, C)`, and
the excess `B - min(B, C)` on the ground pile at position `0`. -/
def initialState (D C B : Nat) : State :=
  { inner := { x := 0, piles := (List.replicate D 0).set 0 (B - min B C) }, held := min B C }

/-- The empty shard (`States::default()`). -/
def emptyStates : States :=
  { inner := [], bananas_sold := 0, solutions := [], assertOk := true }

/-- The shard and frontier just before the first round: `solve` inserts the
initial state into worker 0's shard, and `Worker::run` rebuilds the initial
frontier from the shard's entries. -/
def initPair (D C B : Nat) : States × List State :=
  ((emptyStates.insert D none (initialState D C B)).1, [initialState D C B])

/-- `solve::<D, C>(B)` modelled at one worker: run the loop to completion and
return the final shard (which is also the aggregate at `W = 1`). -/
def solve (D C B : Nat) : States :=
  (runRounds C D (B + 2) (initPair D C B)).1

/-- `StateSet<D>` from the source: the aggregated sharded table plus the
global solution record. -/
structure StateSet where
  states : List (List (StateKey × StateMeta))
  bananas_sold : Nat
  solutions : List StateKey
deriving DecidableEq

/-- The loop body of `StateSet::new`: adopt a strictly better record, extend
on a tie, otherwise keep the running record (the shard list is always
appended). -/
def aggStep (set : StateSet) (st : States) : StateSet :=
  let set := { set with states := set.states ++ [st.inner] }
  if set.bananas_sold < st.bananas_sold then
    { set with bananas_sold := st.bananas_sold, solutions := st.solutions }
  else if st.bananas_sold = set.bananas_sold then
    { set with solutions := set.solutions ++ st.solutions }
  else set

/-- `StateSet::new` from the source: fold the per-worker records in arrival
order. -/
def StateSet.new (l : List States) : StateSet :=
  l.foldl aggStep { states := [], bananas_sold := 0, solutions := [] }

/-! FNV-1a hashing, as the `fnv` crate computes it for the derived `Hash`
instances on a little-endian 64-bit target: a `u16` contributes its two
little-endian bytes, an array field contributes a `usize` length prefix
(eight little-endian bytes) followed by the raw bytes of its elements. -/

/-- FNV-1a offset basis (`FnvHasher::default()`). -/
def fnvOffsetBasis : Nat := 0xcbf29ce484222325

/-- FNV-1a 64-bit prime. -/
def fnvPrime : Nat := 0x100000001b3

/-- FNV-1a over a byte sequence, with explicit 64-bit truncation. -/
def fnvHash (bytes : List Nat) : Nat :=
  bytes.foldl (fun h b => ((h ^^^ b) * fnvPrime) % 2 ^ 64) fnvOffsetBasis

/-- Little-endian bytes of a `u16`. -/
def u16Bytes (n : Nat) : List Nat := [n % 256, n / 256 % 256]

/-- Little-endian bytes of a `usize` (the length prefix hashed for slices). -/
def usizeBytes (n : Nat) : List Nat := (List.range 8).map fun i => n / 256 ^ i % 256

/-- The byte stream fed to the hasher by `StateKey<D>`'s derived `Hash`:
`x`, then the pile array (length prefix, then raw element bytes). -/
def StateKey.hashBytes (k : StateKey) : List Nat :=
  u16Bytes k.x ++ usizeBytes k.piles.length ++ k.piles.flatMap u16Bytes

/-- The byte stream fed to the hasher by `State<D>`'s derived `Hash`:
the inner key's bytes, then `held`. -/
def State.hashBytes (s : State) : List Nat :=
  s.inner.hashBytes ++ u16Bytes s.held

/-- The shard index computed in `Worker::run`'s routing phase:
`hash_one(&successor) % num_workers` — the hash of the **full state**. -/
def routeShard (W : Nat) (s : State) : Nat := fnvHash s.hashBytes % W

/-- The shard index computed in `StateSet::get`:
`hash_one(key) % states.len()` — the hash of the **key only**. -/
def getShard (W : Nat) (k : StateKey) : Nat := fnvHash k.hashBytes % W

/-- The round coordinator's vote protocol (`WorkerShared::synchronize` plus
the vote/check sites in `Worker::run`), one entry per round: each worker
whose frontier is empty at the start of the round adds one vote before the
barrier; the last arriver resets the count to zero unless it equals `W`; each
worker then terminates exactly when the surviving count reaches `W`.  Returns
the index of the terminating round, if any. -/
def protoRun (W : Nat) (votes : Nat) : List (List Bool) → Option Nat
  | [] => none
  | e :: rest =>
    let v := votes + e.count true
    if W ≤ v then some 0
    else (protoRun W 0 rest).map (· + 1)

/-- Spec-side restatement of the transition model, following §4.1 of the
spec word for word: two candidate moves (`position+1`, `position-1`), each
permitted only if `held > 0` and the destination stays within `[0, D)`; after
a move, greedily collect `min(capacity - held, pile[position])`; then one
branch per drop amount in `[0, held]` inclusive. -/
def specSuccessors (C D : Nat) (s : State) : List State :=
  (((if 0 < s.held ∧ s.inner.x + 1 < D then
      [{ inner := { x := s.inner.x + 1, piles := s.inner.piles }, held := s.held - 1 }]
    else [])
      ++
    (if 0 < s.held ∧ 1 ≤ s.inner.x ∧ s.inner.x - 1 < D then
      [{ inner := { x := s.inner.x - 1, piles := s.inner.piles }, held := s.held - 1 }]
    else [])) : List State).flatMap
    fun m =>
      let pile := m.inner.piles.getD m.inner.x 0
      let take := min (C - m.held) pile
      let afterPickup : State :=
        { inner := { x := m.inner.x, piles := m.inner.piles.set m.inner.x (pile - take) }
          held := m.held + take }
      (List.range (afterPickup.held + 1)).map fun amount =>
        { inner := { x := afterPickup.inner.x
                     piles := afterPickup.inner.piles.set afterPickup.inner.x
                       (afterPickup.inner.piles.getD afterPickup.inner.x 0 + amount) }
          held := afterPickup.held - amount }

/-- States reachable from the initial state through `successors`. -/
inductive Reachable (D C B : Nat) : State → Prop
  | init : Reachable D C B (initialState D C B)
  | step {s t : State} : Reachable D C B s → t ∈ s.successors C D → Reachable D C B t

/-- Spec-side definition for the termination claim: the index of the first
round in which every worker's frontier is simultaneously empty. -/
def firstAllEmpty : List (List Bool) → Option Nat
  | [] => none
  | e :: rest => if e.all id then some 0 else (firstAllEmpty rest).map (· + 1)

/-! Basic list lemmas used throughout. -/

theorem sum_replicate_zero (n : Nat) : (List.replicate n 0).sum = 0 := by
  induction n with
  | zero => rfl
  | succ n ih => simp [List.replicate_succ, ih]

theorem set_replicate_zero (n i : Nat) :
    (List.replicate n 0).set i 0 = List.replicate n 0 := by
  induction n generalizing i with
  | zero => rfl
  | succ n ih =>
    cases i with
    | zero => simp [List.replicate_succ]
    | succ i => simp [List.replicate_succ, ih]

theorem getD_replicate_zero (n i : Nat) : (List.replicate n 0).getD i 0 = 0 := by
  induction n generalizing i with
  | zero => simp [List.getD]
  | succ n ih =>
    cases i with
    | zero => simp [List.replicate_succ]
    | succ i => simp [List.replicate_succ, ih]

theorem sum_set_add (l : List Nat) (i v : Nat) (h : i < l.length) :
    (l.set i v).sum + l.getD i 0 = l.sum + v := by
  induction l generalizing i with
  | nil => simp at h
  | cons a t ih =>
    cases i with
    | zero => simp; omega
    | succ i =>
      simp only [List.set_cons_succ, List.sum_cons, List.getD_cons_succ]
      have := ih i (by simpa using h)
      omega

/-! Lemmas about the association-list lookup. -/

theorem lookupKey_append_some {k : StateKey} {m : StateMeta}
    {l l' : List (StateKey × StateMeta)} (h : lookupKey k l = some m) :
    lookupKey k (l ++ l') = some m := by
  induction l with
  | nil => simp [lookupKey] at h
  | cons p t ih =>
    obtain ⟨k', m'⟩ := p
    by_cases hk : k' = k
    · simpa [lookupKey, hk] using h
    · simp only [lookupKey, if_neg hk, List.cons_append] at h ⊢
      exact ih h

theorem lookupKey_none_append {k : StateKey} {l : List (StateKey × StateMeta)}
    (h : lookupKey k l = none) (k' : StateKey) (m : StateMeta) :
    lookupKey k (l ++ [(k', m)]) = if k' = k then some m else none := by
  induction l with
  | nil => simp [lookupKey]
  | cons p t ih =>
    obtain ⟨k₁, m₁⟩ := p
    by_cases hk : k₁ = k
    · simp [lookupKey, hk] at h
    · simp only [lookupKey, if_neg hk, List.cons_append] at h ⊢
      exact ih h

theorem mem_of_lookupKey {k : StateKey} {m : StateMeta}
    {l : List (StateKey × StateMeta)} (h : lookupKey k l = some m) : (k, m) ∈ l := by
  induction l with
  | nil => simp [lookupKey] at h
  | cons p t ih =>
    obtain ⟨k', m'⟩ := p
    by_cases hk : k' = k
    · subst hk
      simp [lookupKey] at h
      simp [h]
    · simp only [lookupKey, if_neg hk] at h
      exact List.mem_cons_of_mem _ (ih h)

/-! Lemmas about the transition model. -/

theorem mem_moves {D : Nat} {s t : State} (ht : t ∈ s.moves D) :
    t.held + 1 = s.held ∧ t.inner.piles = s.inner.piles ∧
      ((t.inner.x = s.inner.x + 1 ∧ s.inner.x + 1 < D) ∨
        (t.inner.x + 1 = s.inner.x ∧ 0 < s.inner.x)) := by
  unfold State.moves at ht
  by_cases h0 : s.held = 0
  · simp [h0] at ht
  · rw [if_neg h0, List.mem_append] at ht
    rcases ht with ht | ht
    · by_cases hf : s.inner.x + 1 < D
      · rw [if_pos hf, List.mem_singleton] at ht
        subst ht
        refine ⟨by simp; omega, rfl, Or.inl ⟨rfl, hf⟩⟩
      · simp [hf] at ht
    · by_cases hb : 0 < s.inner.x
      · rw [if_pos hb, List.mem_singleton] at ht
        subst ht
        refine ⟨by simp; omega, rfl, Or.inr ⟨by simp; omega, hb⟩⟩
      · simp [hb] at ht

theorem pickup_x (C : Nat) (s : State) : (s.pickup C).inner.x = s.inner.x := rfl

theorem pickup_length (C : Nat) (s : State) :
    (s.pickup C).inner.piles.length = s.inner.piles.length := by
  simp [State.pickup]

theorem pickup_held_le {C : Nat} {s : State} (h : s.held ≤ C) : (s.pickup C).held ≤ C := by
  simp only [State.pickup]
  have := Nat.min_le_left (C - s.held) (s.inner.piles.getD s.inner.x 0)
  omega

theorem pickup_conserve {C : Nat} {s : State} (hx : s.inner.x < s.inner.piles.length) :
    (s.pickup C).held + (s.pickup C).inner.piles.sum = s.held + s.inner.piles.sum := by
  simp only [State.pickup]
  have hmin := Nat.min_le_right (C - s.held) (s.inner.piles.getD s.inner.x 0)
  have hs := sum_set_add s.inner.piles s.inner.x
    (s.inner.piles.getD s.inner.x 0 -
      min (C - s.held) (s.inner.piles.getD s.inner.x 0)) hx
  omega

theorem drop_x (s : State) (a : Nat) : (s.drop a).inner.x = s.inner.x := rfl

theorem drop_length (s : State) (a : Nat) :
    (s.drop a).inner.piles.length = s.inner.piles.length := by
  simp [State.drop]

theorem drop_held_le (s : State) (a : Nat) : (s.drop a).held ≤ s.held := by
  simp only [State.drop]
  omega

theorem drop_conserve {s : State} {a : Nat} (hx : s.inner.x < s.inner.piles.length)
    (ha : a ≤ s.held) :
    (s.drop a).held + (s.drop a).inner.piles.sum = s.held + s.inner.piles.sum := by
  simp only [State.drop]
  have hs := sum_set_add s.inner.piles s.inner.x (s.inner.piles.getD s.inner.x 0 + a) hx
  omega

theorem mem_successors {C D : Nat} {s t : State} :
    t ∈ s.successors C D ↔
      ∃ m ∈ s.moves D, ∃ a ≤ (m.pickup C).held, t = (m.pickup C).drop a := by
  simp only [State.successors, List.mem_flatMap, List.mem_map, List.mem_range,
    Nat.lt_succ_iff]
  constructor
  · rintro ⟨m, hm, a, ha, rfl⟩
    exact ⟨m, hm, a, ha, rfl⟩
  · rintro ⟨m, hm, a, ha, rfl⟩
    exact ⟨m, hm, a, ha, rfl⟩

/-- The per-round well-formedness of a frontier state: pile vector of length
`D`, position in range and bounded by the round index, carried amount within
capacity, and the fuel-conservation equation `held + sum(piles) + round = B`. -/
def Good (C D B r : Nat) (s : State) : Prop :=
  s.inner.piles.length = D ∧ s.inner.x < D ∧ s.inner.x ≤ r ∧ s.held ≤ C ∧
    s.held + s.inner.piles.sum + r = B

theorem good_succ {C D B r : Nat} {s t : State} (hs : Good C D B r s)
    (ht : t ∈ s.successors C D) : Good C D B (r + 1) t := by
  obtain ⟨hlen, hx, hxr, hheld, hsum⟩ := hs
  obtain ⟨m, hm, a, ha, rfl⟩ := mem_successors.mp ht
  obtain ⟨hmh, hmp, hmx⟩ := mem_moves hm
  have hmlen : m.inner.piles.length = D := by rw [hmp]; exact hlen
  have hmxD : m.inner.x < D := by rcases hmx with ⟨h1, h2⟩ | ⟨h1, h2⟩ <;> omega
  have hmxr : m.inner.x ≤ r + 1 := by rcases hmx with ⟨h1, h2⟩ | ⟨h1, h2⟩ <;> omega
  have hmheld : m.held ≤ C := by omega
  have hmsum : m.held + m.inner.piles.sum + (r + 1) = B := by
    rw [hmp]; omega
  have hpx : (m.pickup C).inner.x < (m.pickup C).inner.piles.length := by
    rw [pickup_x, pickup_length, hmlen]; exact hmxD
  have hpc := pickup_conserve (C := C) (s := m) (by rw [hmlen]; exact hmxD)
  have hph := pickup_held_le hmheld
  have hdc := drop_conserve hpx ha
  refine ⟨?_, ?_, ?_, ?_, ?_⟩
  · rw [drop_length, pickup_length, hmlen]
  · rw [drop_x, pickup_x]; exact hmxD
  · rw [drop_x, pickup_x]; exact hmxr
  · exact le_trans (drop_held_le _ _) hph
  · omega

theorem succ_basic {C D : Nat} {s t : State} (hlen : s.inner.piles.length = D)
    (hx : s.inner.x < D) (hh : s.held ≤ C) (ht : t ∈ s.successors C D) :
    t.inner.piles.length = D ∧ t.inner.x < D ∧ t.held ≤ C := by
  obtain ⟨m, hm, a, ha, rfl⟩ := mem_successors.mp ht
  obtain ⟨hmh, hmp, hmx⟩ := mem_moves hm
  have hmlen : m.inner.piles.length = D := by rw [hmp]; exact hlen
  have hmxD : m.inner.x < D := by rcases hmx with ⟨h1, h2⟩ | ⟨h1, h2⟩ <;> omega
  have hph := pickup_held_le (C := C) (s := m) (by omega)
  refine ⟨?_, ?_, le_trans (drop_held_le _ _) hph⟩
  · rw [drop_length, pickup_length, hmlen]
  · rw [drop_x, pickup_x]; exact hmxD

/-! Lemmas about `States.insert`. -/

theorem insert_occupied {D : Nat} {s : States} {p : Option State} {st : State}
    {m : StateMeta} (hm : lookupKey st.inner s.inner = some m) :
    (s.insert D p st).1.inner = s.inner ∧ (s.insert D p st).2 = false ∧
      (s.insert D p st).1.assertOk = (s.assertOk && decide (st.held ≤ m.held)) := by
  simp only [States.insert, hm]
  split_ifs <;> simp

theorem insert_vacant {D : Nat} {s : States} {p : Option State} {st : State}
    (hm : lookupKey st.inner s.inner = none) :
    (s.insert D p st).1.inner = s.inner ++ [(st.inner, ⟨p, st.held⟩)] ∧
      (s.insert D p st).2 = true ∧ (s.insert D p st).1.assertOk = s.assertOk := by
  simp only [States.insert, hm]
  split_ifs <;> simp

theorem insert_sold_mono {D : Nat} {s : States} {p : Option State} {st : State} :
    s.bananas_sold ≤ (s.insert D p st).1.bananas_sold := by
  cases hm : lookupKey st.inner s.inner with
  | none => simp only [States.insert, hm]; split_ifs <;> first | (simp; omega) | simp
  | some m => simp only [States.insert, hm]; split_ifs <;> first | (simp; omega) | simp

theorem insert_sold_final {D : Nat} {s : States} {p : Option State} {st : State}
    (hx : st.inner.x = D - 1) : st.held ≤ (s.insert D p st).1.bananas_sold := by
  cases hm : lookupKey st.inner s.inner with
  | none => simp only [States.insert, hm]; rw [if_pos hx]; split_ifs <;> simp <;> omega
  | some m => simp only [States.insert, hm]; rw [if_pos hx]; split_ifs <;> simp <;> omega

theorem insert_sold_cases {D : Nat} {s : States} {p : Option State} {st : State} :
    (s.insert D p st).1.bananas_sold = s.bananas_sold ∨
      ((s.insert D p st).1.bananas_sold = st.held ∧ st.inner.x = D - 1) := by
  cases hm : lookupKey st.inner s.inner with
  | none => simp only [States.insert, hm]; split_ifs <;> simp_all
  | some m => simp only [States.insert, hm]; split_ifs <;> simp_all

theorem insert_lookup_mono {D : Nat} {s : States} {p : Option State} {st : State}
    {k : StateKey} {m' : StateMeta} (h : lookupKey k s.inner = some m') :
    lookupKey k (s.insert D p st).1.inner = some m' := by
  cases hm : lookupKey st.inner s.inner with
  | none => rw [(insert_vacant hm).1]; exact lookupKey_append_some h
  | some m => rw [(insert_occupied hm).1]; exact h

/-! The shard invariant maintained round by round. -/

/-- Invariant for a stored map entry: well-formed key, and its `held` value
satisfies fuel conservation for the (existentially recorded) round at which
it was inserted. -/
def GoodEntry (C D B r : Nat) (km : StateKey × StateMeta) : Prop :=
  km.1.piles.length = D ∧ km.1.x < D ∧
    ∃ r', r' ≤ r ∧ km.1.x ≤ r' ∧ km.2.held ≤ C ∧ km.2.held + km.1.piles.sum + r' = B

def GoodMap (C D B r : Nat) (l : List (StateKey × StateMeta)) : Prop :=
  ∀ km ∈ l, GoodEntry C D B r km

theorem goodMap_mono {C D B r r' : Nat} {l : List (StateKey × StateMeta)}
    (h : r ≤ r') (hl : GoodMap C D B r l) : GoodMap C D B r' l := by
  intro km hkm
  obtain ⟨h1, h2, r'', hr'', h3, h4, h5⟩ := hl km hkm
  exact ⟨h1, h2, r'', by omega, h3, h4, h5⟩

/-- Invariant for the solution record: `bananas_sold` is either untouched or
comes from a state at the final position, whose `held` is at most
`B - (D - 1)`. -/
def SoldOk (D B n : Nat) : Prop := n = 0 ∨ n + (D - 1) ≤ B

def GoodStates (C D B r : Nat) (s : States) : Prop :=
  GoodMap C D B r s.inner ∧ SoldOk D B s.bananas_sold ∧ s.assertOk = true

theorem insert_good {C D B r : Nat} {s : States} {p : Option State} {st : State}
    (hs : GoodStates C D B r s) (hst : Good C D B r st) :
    GoodStates C D B r (s.insert D p st).1 := by
  obtain ⟨hmap, hsold, hok⟩ := hs
  obtain ⟨hlen, hx, hxr, hheld, hsum⟩ := hst
  have hsoldOut : SoldOk D B (s.insert D p st).1.bananas_sold := by
    rcases @insert_sold_cases D s p st with h | ⟨h, hx'⟩
    · rw [h]; exact hsold
    · rw [h]; right; omega
  cases hm : lookupKey st.inner s.inner with
  | none =>
    obtain ⟨hi, _, ha⟩ := insert_vacant (D := D) (p := p) hm
    refine ⟨?_, hsoldOut, by rw [ha]; exact hok⟩
    rw [hi]
    intro km hkm
    rcases List.mem_append.mp hkm with h | h
    · exact hmap km h
    · rcases List.mem_singleton.mp h with rfl
      exact ⟨hlen, hx, r, le_refl r, hxr, hheld, hsum⟩
  | some m =>
    obtain ⟨hi, _, ha⟩ := insert_occupied (D := D) (p := p) hm
    have hmem := hmap _ (mem_of_lookupKey hm)
    obtain ⟨-, -, r'', hr'', -, -, h5⟩ := hmem
    have h5' : m.held + st.inner.piles.sum + r'' = B := h5
    have hle : st.held ≤ m.held := by omega
    refine ⟨by rw [hi]; exact hmap, hsoldOut, ?_⟩
    rw [ha, hok]
    simp [hle]

def Inv (C D B r : Nat) (p : States × List State) : Prop :=
  GoodStates C D B r p.1 ∧ ∀ s ∈ p.2, Good C D B r s

theorem fold_good {C D B r : Nat} (L : List (State × State)) (s : States) (nx : List State)
    (hs : GoodStates C D B r s) (hnx : ∀ t ∈ nx, Good C D B r t)
    (hL : ∀ pr ∈ L, Good C D B r pr.2) :
    GoodStates C D B r (L.foldl (receivePair D) (s, nx)).1 ∧
      ∀ t ∈ (L.foldl (receivePair D) (s, nx)).2, Good C D B r t := by
  induction L generalizing s nx with
  | nil => exact ⟨hs, hnx⟩
  | cons pr L ih =>
    simp only [List.foldl_cons, receivePair]
    apply ih
    · exact insert_good hs (hL pr (by simp))
    · intro t ht
      by_cases hi : (s.insert D (some pr.1) pr.2).2 = true
      · rw [if_pos hi] at ht
        rcases List.mem_append.mp ht with h | h
        · exact hnx t h
        · rcases List.mem_singleton.mp h with rfl
          exact hL pr (by simp)
      · rw [if_neg hi] at ht
        exact hnx t ht
    · intro pr' h
      exact hL pr' (List.mem_cons_of_mem _ h)

theorem stepRound_inv {C D B r : Nat} {p : States × List State} (h : Inv C D B r p) :
    Inv C D B (r + 1) (stepRound C D p) := by
  obtain ⟨⟨hmap, hsold, hok⟩, hf⟩ := h
  have hs' : GoodStates C D B (r + 1) p.1 := ⟨goodMap_mono (Nat.le_succ r) hmap, hsold, hok⟩
  refine fold_good _ _ _ hs' (by simp) ?_
  intro pr hpr
  simp only [List.mem_flatMap, List.mem_map] at hpr
  obtain ⟨a, ha, t, ht, rfl⟩ := hpr
  exact good_succ (hf a ha) ht

theorem runRounds_inv {C D B : Nat} (fuel : Nat) {r : Nat} {p : States × List State}
    (h : Inv C D B r p) : ∃ r', r ≤ r' ∧ Inv C D B r' (runRounds C D fuel p) := by
  induction fuel generalizing r p with
  | zero => exact ⟨r, le_refl r, h⟩
  | succ f ih =>
    by_cases he : p.2 = []
    · simp only [runRounds, if_pos he]
      exact ⟨r, le_refl r, h⟩
    · simp only [runRounds, if_neg he]
      obtain ⟨r', hr', h'⟩ := ih (stepRound_inv h)
      exact ⟨r', by omega, h'⟩

theorem good_initialState (D C B : Nat) (hD : 1 ≤ D) : Good C D B 0 (initialState D C B) := by
  obtain ⟨d, rfl⟩ : ∃ d, D = d + 1 := ⟨D - 1, by omega⟩
  have hmin : min B C ≤ B := Nat.min_le_left B C
  have hsum : (initialState (d + 1) C B).inner.piles.sum = B - min B C := by
    simp [initialState, List.replicate_succ, sum_replicate_zero]
  refine ⟨?_, ?_, ?_, Nat.min_le_right B C, ?_⟩
  · simp [initialState]
  · simp [initialState]
  · simp [initialState]
  · show min B C + (initialState (d + 1) C B).inner.piles.sum + 0 = B
    rw [hsum]
    omega

theorem initPair_inv (D C B : Nat) (hD : 1 ≤ D) : Inv C D B 0 (initPair D C B) := by
  have hg := good_initialState D C B hD
  constructor
  · exact insert_good
      ((⟨fun km h => absurd h (List.not_mem_nil km), Or.inl rfl, rfl⟩ :
        GoodStates C D B 0 emptyStates)) hg
  · intro s hs
    have hs' : s ∈ [initialState D C B] := hs
    rcases List.mem_singleton.mp hs' with rfl
    exact hg

/-! Monotonicity of the receive fold, and the first-insertion lemma used to
track the direct-trip state through the rounds. -/

theorem state_ext {a b : State} (h1 : a.inner = b.inner) (h2 : a.held = b.held) : a = b := by
  cases a
  cases b
  simp_all

theorem fold_frontier_mono {D : Nat} (L : List (State × State)) (s : States) (nx : List State)
    {t : State} (ht : t ∈ nx) : t ∈ (L.foldl (receivePair D) (s, nx)).2 := by
  induction L generalizing s nx with
  | nil => exact ht
  | cons pr L ih =>
    simp only [List.foldl_cons, receivePair]
    apply ih
    by_cases hi : (s.insert D (some pr.1) pr.2).2 = true
    · rw [if_pos hi]
      exact List.mem_append_left _ ht
    · rw [if_neg hi]
      exact ht

theorem fold_sold_mono {D : Nat} (L : List (State × State)) (s : States) (nx : List State) :
    s.bananas_sold ≤ (L.foldl (receivePair D) (s, nx)).1.bananas_sold := by
  induction L generalizing s nx with
  | nil => exact le_refl _
  | cons pr L ih =>
    simp only [List.foldl_cons, receivePair]
    exact le_trans insert_sold_mono (ih _ _)

theorem fold_first_insert {D : Nat} (L : List (State × State)) (s : States) (nx : List State)
    {t : State} (hmem : ∃ q, (q, t) ∈ L)
    (hvac : lookupKey t.inner s.inner = none)
    (huniq : ∀ pr ∈ L, pr.2.inner = t.inner → pr.2.held = t.held) :
    t ∈ (L.foldl (receivePair D) (s, nx)).2 ∧
      (t.inner.x = D - 1 → t.held ≤ (L.foldl (receivePair D) (s, nx)).1.bananas_sold) := by
  induction L generalizing s nx with
  | nil =>
    obtain ⟨q, hq⟩ := hmem
    simp at hq
  | cons pr L ih =>
    by_cases hk : pr.2.inner = t.inner
    · have hpr2 : pr.2 = t := state_ext hk (huniq pr (by simp) hk)
      simp only [List.foldl_cons, receivePair, hpr2]
      rw [(insert_vacant (p := some pr.1) hvac).2.1]
      simp only [if_true]
      constructor
      · exact fold_frontier_mono _ _ _ (List.mem_append_right _ (List.mem_singleton_self t))
      · intro hx
        exact le_trans (insert_sold_final hx) (fold_sold_mono _ _ _)
    · have hmem' : ∃ q, (q, t) ∈ L := by
        obtain ⟨q, hq⟩ := hmem
        rcases List.mem_cons.mp hq with h | h
        · exact absurd (by rw [← h]) hk
        · exact ⟨q, h⟩
      have hvac' : lookupKey t.inner (s.insert D (some pr.1) pr.2).1.inner = none := by
        cases hm2 : lookupKey pr.2.inner s.inner with
        | some m =>
          rw [(insert_occupied hm2).1]
          exact hvac
        | none =>
          rw [(insert_vacant hm2).1, lookupKey_none_append hvac, if_neg hk]
      simp only [List.foldl_cons, receivePair]
      exact ih _ _ hmem' hvac' fun pr' h' hk' => huniq pr' (List.mem_cons_of_mem _ h') hk'

/-- The direct-trip state of round `r`: position `r`, all piles empty,
carrying `B - r`. -/
def dstate (D B r : Nat) : State := ⟨⟨r, List.replicate D 0⟩, B - r⟩

theorem dstate_succ_mem {C D B r : Nat} (hr1 : r + 1 < D) (hr2 : r < B) :
    dstate D B (r + 1) ∈ (dstate D B r).successors C D := by
  apply mem_successors.mpr
  refine ⟨⟨⟨r + 1, List.replicate D 0⟩, B - r - 1⟩, ?_, 0, Nat.zero_le _, ?_⟩
  · simp only [State.moves, dstate]
    rw [if_neg (by omega : ¬(B - r = 0))]
    apply List.mem_append_left
    rw [if_pos hr1]
    simp
  · simp [State.pickup, State.drop, dstate, getD_replicate_zero, set_replicate_zero,
      Nat.sub_sub]

/-- The achievability invariant for `B ≤ C`: the direct-trip state of the
current round is in the frontier while the goal has not been reached, and
from the round the goal is first reachable onwards, `bananas_sold` has seen
`B - (D - 1)`. -/
def LowerInv (D B r : Nat) (p : States × List State) : Prop :=
  (r ≤ D - 1 → r ≤ B → dstate D B r ∈ p.2) ∧
    (D - 1 ≤ r → D - 1 ≤ B → B - (D - 1) ≤ p.1.bananas_sold)

theorem stepRound_lower {C D B r : Nat} {p : States × List State} (hD : 1 ≤ D)
    (hI : Inv C D B r p) (hL : LowerInv D B r p) :
    LowerInv D B (r + 1) (stepRound C D p) := by
  obtain ⟨⟨hmap, hsold, hok⟩, hf⟩ := hI
  have hGoodAtt : ∀ pr ∈ (p.2.flatMap fun s => (s.successors C D).map fun t => (s, t)),
      Good C D B (r + 1) pr.2 := by
    intro pr hpr
    simp only [List.mem_flatMap, List.mem_map] at hpr
    obtain ⟨a, ha, t, ht, rfl⟩ := hpr
    exact good_succ (hf a ha) ht
  have main : r + 1 < D → r + 1 ≤ B → dstate D B r ∈ p.2 →
      dstate D B (r + 1) ∈ (stepRound C D p).2 ∧
        (r + 1 = D - 1 → B - (D - 1) ≤ (stepRound C D p).1.bananas_sold) := by
    intro hr1 hrB hd
    have hpair : (dstate D B r, dstate D B (r + 1)) ∈
        (p.2.flatMap fun s => (s.successors C D).map fun t => (s, t)) := by
      simp only [List.mem_flatMap, List.mem_map]
      exact ⟨dstate D B r, hd, dstate D B (r + 1), dstate_succ_mem hr1 (by omega), rfl⟩
    have hvac : lookupKey (dstate D B (r + 1)).inner p.1.inner = none := by
      cases hq : lookupKey (dstate D B (r + 1)).inner p.1.inner with
      | none => rfl
      | some m =>
        exfalso
        obtain ⟨-, -, r'', hr'', hx'', -, -⟩ := hmap _ (mem_of_lookupKey hq)
        have hxx : ((dstate D B (r + 1)).inner, m).1.x = r + 1 := rfl
        omega
    have huniq : ∀ pr ∈ (p.2.flatMap fun s => (s.successors C D).map fun t => (s, t)),
        pr.2.inner = (dstate D B (r + 1)).inner → pr.2.held = (dstate D B (r + 1)).held := by
      intro pr h hk
      obtain ⟨hlen, hx, hxr, hheld, hsum⟩ := hGoodAtt pr h
      have hsum0 : pr.2.inner.piles.sum = 0 := by
        rw [hk]
        exact sum_replicate_zero D
      show pr.2.held = B - (r + 1)
      omega
    obtain ⟨hin, hsold'⟩ :=
      fold_first_insert (D := D) _ p.1 [] ⟨dstate D B r, hpair⟩ hvac huniq
    refine ⟨hin, ?_⟩
    intro hd1
    have hb : B - (r + 1) ≤ (stepRound C D p).1.bananas_sold :=
      hsold' (by show r + 1 = D - 1; exact hd1)
    omega
  constructor
  · intro h1 h2
    have hr1 : r + 1 < D := by omega
    exact (main hr1 h2 (hL.1 (by omega) (by omega))).1
  · intro h1 h2
    by_cases hr : D - 1 ≤ r
    · have hlow := hL.2 hr h2
      have hmono : p.1.bananas_sold ≤ (stepRound C D p).1.bananas_sold := by
        simp only [stepRound]
        exact fold_sold_mono _ _ _
      omega
    · have hd1 : r + 1 = D - 1 := by omega
      exact (main (by omega) (by omega) (hL.1 (by omega) (by omega))).2 hd1

theorem initPair_lower (D C B : Nat) (hD : 1 ≤ D) (hB : B ≤ C) :
    LowerInv D B 0 (initPair D C B) := by
  have hmin : min B C = B := Nat.min_eq_left hB
  have hinit : dstate D B 0 = initialState D C B := by
    simp [dstate, initialState, hmin, set_replicate_zero]
  constructor
  · intro _ _
    show dstate D B 0 ∈ [initialState D C B]
    rw [hinit]
    exact List.mem_singleton_self _
  · intro h1 h2
    have hD1 : D = 1 := by omega
    subst hD1
    have hx : (initialState 1 C B).inner.x = 1 - 1 := rfl
    have hfin := @insert_sold_final 1 emptyStates none (initialState 1 C B) hx
    have hh : (initialState 1 C B).held = B := by
      simp [initialState, hmin]
    rw [hh] at hfin
    show B - (1 - 1) ≤ (emptyStates.insert 1 none (initialState 1 C B)).1.bananas_sold
    omega

theorem sold_of_empty {C D B r : Nat} {p : States × List State}
    (hI : Inv C D B r p) (hL : LowerInv D B r p) (he : p.2 = []) :
    p.1.bananas_sold = B - (D - 1) := by
  by_cases hDB : D - 1 ≤ B
  · by_cases hr : D - 1 ≤ r
    · have hlow := hL.2 hr hDB
      rcases hI.1.2.1 with h0 | hub <;> omega
    · exfalso
      have := hL.1 (by omega) (by omega)
      rw [he] at this
      simp at this
  · rcases hI.1.2.1 with h0 | hub <;> omega

theorem runRounds_sold {C D B : Nat} (hD : 1 ≤ D) :
    ∀ (fuel r : Nat) (p : States × List State), Inv C D B r p → LowerInv D B r p →
      B + 2 ≤ fuel + r →
      (runRounds C D fuel p).1.bananas_sold = B - (D - 1) ∧ (runRounds C D fuel p).2 = [] := by
  intro fuel
  induction fuel with
  | zero =>
    intro r p hI hL hf
    have he : p.2 = [] := by
      cases hp : p.2 with
      | nil => rfl
      | cons a t =>
        exfalso
        obtain ⟨-, -, -, -, hsum⟩ := hI.2 a (by rw [hp]; exact List.mem_cons_self a t)
        omega
    exact ⟨sold_of_empty hI hL he, he⟩
  | succ f ih =>
    intro r p hI hL hf
    by_cases he : p.2 = []
    · simp only [runRounds, if_pos he]
      exact ⟨sold_of_empty hI hL he, he⟩
    · simp only [runRounds, if_neg he]
      exact ih (r + 1) _ (stepRound_inv hI) (stepRound_lower hD hI hL) (by omega)

/-! Claim theorems. -/

/-- C1 (code bug): the routing phase of `Worker::run` computes the shard as
`hash_one(&successor) % W`, hashing the full `State` — including `held` —
whereas the spec (and `StateSet::get`, which hashes only the `StateKey`)
requires the shard to be a function of the canonical key alone.  Concretely,
with `W = 2` workers and `D = 1`, the two states sharing the key
`(x = 0, piles = [0])` but holding `0` and `1` are routed to different
shards, and `StateSet::get`'s key-only shard disagrees with the shard the
held-1 state was routed to. -/
theorem routing_hash_covers_held :
    (⟨⟨0, [0]⟩, 0⟩ : State).inner = (⟨⟨0, [0]⟩, 1⟩ : State).inner ∧
      routeShard 2 ⟨⟨0, [0]⟩, 0⟩ ≠ routeShard 2 ⟨⟨0, [0]⟩, 1⟩ ∧
      getShard 2 (⟨0, [0]⟩ : StateKey) ≠ routeShard 2 ⟨⟨0, [0]⟩, 1⟩ :=
  ⟨rfl, by decide, by decide⟩

/-- C10: for every `B` and `C` (and any nonempty road, `1 ≤ D`), the initial
state sits at position `0`, holds `min B C`, puts the excess `B - min B C`
on the pile at position `0` with every other pile zero, satisfies
`held ≤ C` even when `B > C`, and carries total fuel exactly `B`. -/
theorem initial_state_spec (D C B : Nat) (hD : 1 ≤ D) :
    (initialState D C B).inner.x = 0 ∧
      (initialState D C B).held = min B C ∧
      (initialState D C B).held ≤ C ∧
      (initialState D C B).inner.piles = (B - min B C) :: List.replicate (D - 1) 0 ∧
      (initialState D C B).held + (initialState D C B).inner.piles.sum = B := by
  obtain ⟨d, rfl⟩ : ∃ d, D = d + 1 := ⟨D - 1, by omega⟩
  have hmin : min B C ≤ B := Nat.min_le_left B C
  refine ⟨rfl, rfl, Nat.min_le_right B C, ?_, ?_⟩
  · simp [initialState, List.replicate_succ]
  · simp only [initialState, List.replicate_succ, List.set_cons_zero, List.sum_cons,
      sum_replicate_zero]
    omega

theorem initial_state_spec_witness :
    1 ≤ 1 ∧ ((initialState 1 2 5).inner.x = 0 ∧
      (initialState 1 2 5).held = min 5 2 ∧
      (initialState 1 2 5).held ≤ 2 ∧
      (initialState 1 2 5).inner.piles = (5 - min 5 2) :: List.replicate (1 - 1) 0 ∧
      (initialState 1 2 5).held + (initialState 1 2 5).inner.piles.sum = 5) :=
  ⟨by decide, initial_state_spec 1 2 5 (by decide)⟩

/-- C2 counterexample: `D = C = B = 1` satisfies `C ≥ D`, yet the search
reports `best_delivered = 1` (the start is already the final position and
holds `min(B, C) = 1`), not `B - D = 0`. -/
theorem capacity_scenario_claim_false :
    1 ≤ 1 ∧ (solve 1 1 1).bananas_sold ≠ 1 - 1 :=
  ⟨le_refl 1, by decide⟩

/-- C2 (amended): whenever the whole supply fits in one load (`B ≤ C`) and
the road is nonempty (`1 ≤ D`), the search terminates and reports
`best_delivered = B - (D - 1)` exactly — the single direct trip over the
`D - 1` steps separating position `0` from position `D - 1` is optimal (and
`0` when the trip is impossible, `B < D - 1`). -/
theorem solve_single_trip (D C B : Nat) (hD : 1 ≤ D) (hB : B ≤ C) :
    (solve D C B).bananas_sold = B - (D - 1) ∧
      (runRounds C D (B + 2) (initPair D C B)).2 = [] :=
  runRounds_sold hD (B + 2) 0 (initPair D C B) (initPair_inv D C B hD)
    (initPair_lower D C B hD hB) (by omega)

theorem solve_single_trip_witness :
    1 ≤ 2 ∧ 3 ≤ 3 ∧ ((solve 2 3 3).bananas_sold = 3 - 1 ∧
      (runRounds 3 2 (3 + 2) (initPair 2 3 3)).2 = []) :=
  ⟨by decide, by decide, solve_single_trip 2 3 3 (by decide) (by decide)⟩

/-- C4: in every run from the initial state the source's
`assert!(e.get().held >= state.held)` never fails (the run's `assertOk` ghost
flag stays `true`); moreover an insert on an occupied key always reports
"discarded", and an insert never modifies any stored `StateMeta`. -/
theorem insert_monotonic (D C B : Nat) (s : States) (p : Option State) (st : State)
    (m : StateMeta) (k : StateKey) (m' : StateMeta) (hD : 1 ≤ D) :
    (solve D C B).assertOk = true ∧
      (lookupKey st.inner s.inner = some m → (s.insert D p st).2 = false) ∧
      (lookupKey k s.inner = some m' → lookupKey k (s.insert D p st).1.inner = some m') := by
  refine ⟨?_, fun hm => (insert_occupied hm).2.1, fun h => insert_lookup_mono h⟩
  obtain ⟨r', -, hInv⟩ := runRounds_inv (B + 2) (initPair_inv D C B hD)
  exact hInv.1.2.2

def c4Key : StateKey := ⟨0, [0]⟩

def c4Meta : StateMeta := ⟨none, 0⟩

def c4States : States := ⟨[(c4Key, c4Meta)], 0, [], true⟩

def c4St : State := ⟨c4Key, 0⟩

theorem insert_monotonic_witness :
    1 ≤ 1 ∧ ((solve 1 0 0).assertOk = true ∧
      (lookupKey c4St.inner c4States.inner = some c4Meta →
        (c4States.insert 1 none c4St).2 = false) ∧
      (lookupKey c4Key c4States.inner = some c4Meta →
        lookupKey c4Key (c4States.insert 1 none c4St).1.inner = some c4Meta)) :=
  ⟨by decide, insert_monotonic 1 0 0 c4States none c4St c4Meta c4Key c4Meta (by decide)⟩

/-- C3 counterexample: at `D = 1` (which is `> 0`), `C = 0`, `B = 2`, the
search reports the start state's key as a winning solution, not "no
solution" — the start already sits at the final position `D - 1 = 0`. -/
theorem czero_claim_false :
    (solve 1 0 2).solutions ≠ [] ∧
      (solve 1 0 2).solutions = [⟨0, [2]⟩] ∧ (solve 1 0 2).bananas_sold = 0 :=
  ⟨by decide, by decide, by decide⟩

theorem successors_of_held_zero {C D : Nat} {s : State} (h : s.held = 0) :
    s.successors C D = [] := by
  simp [State.successors, State.moves, h]

theorem runRounds_nil (C D : Nat) (f : Nat) (s : States) :
    runRounds C D f (s, []) = (s, []) := by
  cases f with
  | zero => rfl
  | succ f => simp [runRounds]

/-- C3 (amended): for `C = 0` and a nonempty road, the search terminates
with `best_delivered = 0`; the winning set is exactly the start key when
`D = 1` (the start is the final position), and empty — "no solution" — for
every `D ≥ 2`. -/
theorem czero_amended (D B : Nat) (hD : 1 ≤ D) :
    (solve D 0 B).bananas_sold = 0 ∧
      (solve D 0 B).solutions = (if D = 1 then [(initialState D 0 B).inner] else []) ∧
      (runRounds 0 D (B + 2) (initPair D 0 B)).2 = [] := by
  have hheld : (initialState D 0 B).held = 0 := by
    simp [initialState]
  have hstep : stepRound 0 D (initPair D 0 B) = ((initPair D 0 B).1, []) := by
    simp [stepRound, initPair, successors_of_held_zero hheld]
  have hrun : runRounds 0 D (B + 2) (initPair D 0 B) = ((initPair D 0 B).1, []) := by
    show runRounds 0 D (B + 1 + 1) (initPair D 0 B) = ((initPair D 0 B).1, [])
    rw [runRounds]
    rw [if_neg (by simp [initPair] : ¬((initPair D 0 B).2 = []))]
    rw [hstep, runRounds_nil]
  have hvac : lookupKey (initialState D 0 B).inner emptyStates.inner = none := rfl
  have hins1 : (emptyStates.insert D none (initialState D 0 B)).1.bananas_sold = 0 := by
    simp only [States.insert, hvac]
    split_ifs <;> simp_all [emptyStates]
  have hins2 : (emptyStates.insert D none (initialState D 0 B)).1.solutions =
      (if D = 1 then [(initialState D 0 B).inner] else []) := by
    simp only [States.insert, hvac]
    by_cases hD1 : D = 1
    · subst hD1
      rw [if_pos (show (initialState 1 0 B).inner.x = 1 - 1 from rfl), if_pos rfl]
      split_ifs with h2 h3
      · exfalso
        rw [hheld] at h2
        simp [emptyStates] at h2
      · simp [emptyStates]
      · exfalso
        apply h3
        rw [hheld]
        simp [emptyStates]
    · rw [if_neg (show ¬((initialState D 0 B).inner.x = D - 1) by
        show ¬((0 : Nat) = D - 1)
        omega), if_neg hD1]
      simp [emptyStates]
  refine ⟨?_, ?_, by rw [hrun]⟩
  · show (runRounds 0 D (B + 2) (initPair D 0 B)).1.bananas_sold = 0
    rw [hrun]
    exact hins1
  · show (runRounds 0 D (B + 2) (initPair D 0 B)).1.solutions = _
    rw [hrun]
    exact hins2

theorem czero_amended_witness :
    1 ≤ 2 ∧ ((solve 2 0 3).bananas_sold = 0 ∧
      (solve 2 0 3).solutions = (if 2 = 1 then [(initialState 2 0 3).inner] else []) ∧
      (runRounds 0 2 (3 + 2) (initPair 2 0 3)).2 = []) :=
  ⟨by decide, czero_amended 2 3 (by decide)⟩

theorem length_flatMap_le {α β : Type} (l : List α) (f : α → List β) (n : Nat)
    (h : ∀ a ∈ l, (f a).length ≤ n) : (l.flatMap f).length ≤ l.length * n := by
  induction l with
  | nil => simp
  | cons a t ih =>
    rw [List.flatMap_cons, List.length_append, List.length_cons, Nat.succ_mul]
    have h1 := h a (List.mem_cons_self a t)
    have h2 := ih fun x hx => h x (List.mem_cons_of_mem _ hx)
    omega

/-- C5: for a well-formed state (position in `[0, D)`, `held ≤ C`, pile
vector of length `D`), `successors` enumerates exactly what §4.1 of the spec
describes — at most two moves, each only if `held > 0` with destination in
`[0, D)`, then the greedy pickup, then one successor per drop amount in
`[0, held]` — and produces at most `2 * (C + 1)` successors. -/
theorem successors_match_spec (C D : Nat) (s : State) (hx : s.inner.x < D)
    (hh : s.held ≤ C) (hl : s.inner.piles.length = D) :
    s.successors C D = specSuccessors C D s ∧
      (s.successors C D).length ≤ 2 * (C + 1) := by
  have hmoves : s.moves D =
      ((if 0 < s.held ∧ s.inner.x + 1 < D then
        [{ inner := { x := s.inner.x + 1, piles := s.inner.piles }, held := s.held - 1 }]
      else []) ++
      (if 0 < s.held ∧ 1 ≤ s.inner.x ∧ s.inner.x - 1 < D then
        [{ inner := { x := s.inner.x - 1, piles := s.inner.piles }, held := s.held - 1 }]
      else [])) := by
    unfold State.moves
    by_cases h0 : s.held = 0
    · rw [if_pos h0, if_neg (by omega), if_neg (by omega)]
      rfl
    · rw [if_neg h0]
      congr 1
      · by_cases hf : s.inner.x + 1 < D
        · rw [if_pos hf, if_pos ⟨by omega, hf⟩]
        · rw [if_neg hf, if_neg fun hc => hf hc.2]
      · by_cases hb : 0 < s.inner.x
        · rw [if_pos hb, if_pos ⟨by omega, by omega, by omega⟩]
        · rw [if_neg hb, if_neg fun hc => hb (by omega)]
  constructor
  · show (s.moves D).flatMap _ = specSuccessors C D s
    rw [hmoves]
    rfl
  · show ((s.moves D).flatMap _).length ≤ 2 * (C + 1)
    have hb : ∀ m ∈ s.moves D,
        ((List.range ((m.pickup C).held + 1)).map fun amount =>
          (m.pickup C).drop amount).length ≤ C + 1 := by
      intro m hm
      obtain ⟨hmh, -, -⟩ := mem_moves hm
      have hple : (m.pickup C).held ≤ C := pickup_held_le (by omega)
      rw [List.length_map, List.length_range]
      omega
    have hlen2 : (s.moves D).length ≤ 2 := by
      rw [hmoves]
      split_ifs <;> simp
    have h1 := length_flatMap_le (s.moves D) _ (C + 1) hb
    have h2 : (s.moves D).length * (C + 1) ≤ 2 * (C + 1) :=
      Nat.mul_le_mul_right _ hlen2
    omega

theorem successors_match_spec_witness :
    (⟨⟨0, [0, 3]⟩, 1⟩ : State).inner.x < 2 ∧ (⟨⟨0, [0, 3]⟩, 1⟩ : State).held ≤ 2 ∧
      (⟨⟨0, [0, 3]⟩, 1⟩ : State).inner.piles.length = 2 ∧
      ((⟨⟨0, [0, 3]⟩, 1⟩ : State).successors 2 2 = specSuccessors 2 2 ⟨⟨0, [0, 3]⟩, 1⟩ ∧
        ((⟨⟨0, [0, 3]⟩, 1⟩ : State).successors 2 2).length ≤ 2 * (2 + 1)) :=
  ⟨by decide, by decide, by decide,
    successors_match_spec 2 2 ⟨⟨0, [0, 3]⟩, 1⟩ (by decide) (by decide) (by decide)⟩

theorem reachable_wf {D C B : Nat} (hD : 1 ≤ D) {s : State} (hs : Reachable D C B s) :
    s.inner.piles.length = D ∧ s.inner.x < D ∧ s.held ≤ C := by
  induction hs with
  | init =>
    obtain ⟨h1, h2, -, h4, -⟩ := good_initialState D C B hD
    exact ⟨h1, h2, h4⟩
  | step hr ht ih => exact succ_basic ih.1 ih.2.1 ih.2.2 ht

/-- C6: every state reachable from the initial state through `successors`
carries at most the capacity (`held ≤ C`, so the `u16` subtraction
`C - held` inside `pickup` never underflows) and has only non-negative pile
entries (immediate in the `Nat` model; stated over the pile vector). -/
theorem reachable_bounds (D C B : Nat) (s : State) (hD : 1 ≤ D)
    (hs : Reachable D C B s) :
    s.held ≤ C ∧ (s.inner.piles.all fun q => decide (0 ≤ q)) = true := by
  refine ⟨(reachable_wf hD hs).2.2, ?_⟩
  simp [List.all_eq_true]

theorem reachable_bounds_witness :
    1 ≤ 1 ∧ Reachable 1 0 5 (initialState 1 0 5) ∧
      ((initialState 1 0 5).held ≤ 0 ∧
        ((initialState 1 0 5).inner.piles.all fun q => decide (0 ≤ q)) = true) :=
  ⟨by decide, Reachable.init, reachable_bounds 1 0 5 _ (by decide) Reachable.init⟩

/-- The shard state reached during round 2 of the run `solve 2 3 5` just
before the receive loop processes the pair
`(⟨(0, [0, 1]), 2⟩, ⟨(1, [0, 0]), 2⟩)` — restricted here to the one entry
that matters for the discarded insert. -/
def c7States : States := ⟨[(⟨1, [0, 0]⟩, ⟨none, 2⟩)], 2, [⟨1, [0, 0]⟩], true⟩

def c7Prev : State := ⟨⟨0, [0, 1]⟩, 2⟩

def c7New : State := ⟨⟨1, [0, 0]⟩, 2⟩

/-- C7 counterexample: an insertion attempt that is discarded as already
present does NOT leave the SolutionRecord unchanged — the `bananas_sold`
update in `States::insert` runs outside the vacant/occupied match, so a
discarded state at the final position with `held` equal to the current
`bananas_sold` appends its key to `solutions` again.  This occurs in a real
run: `solve 2 3 5` ends with the winning key `(1, [0, 0])` recorded twice. -/
theorem discarded_insert_changes_record :
    (c7States.insert 2 (some c7Prev) c7New).2 = false ∧
      (c7States.insert 2 (some c7Prev) c7New).1.solutions ≠ c7States.solutions ∧
      ¬ (solve 2 3 5).solutions.Nodup :=
  ⟨by decide, by decide, by decide⟩

/-- C7 (amended): in the receive loop, a successor becomes a next-round
frontier entry exactly when its insert reports "newly inserted"; a discarded
attempt leaves the frontier, the stored map and `best_delivered` unchanged,
and leaves the winner list unchanged as well **except** that when the
discarded state sits at the final position with `held` equal to the current
`best_delivered`, its key is appended to the winner list a second time.
(The hypotheses — the stored `held` dominates the incoming one and, for
final keys, is dominated by `bananas_sold` — are the run invariants
established for C4.) -/
theorem receive_discard_amended (D : Nat) (s : States) (nx : List State) (p st : State)
    (m : StateMeta) (hm : lookupKey st.inner s.inner = some m) (hheld : st.held ≤ m.held)
    (hsold : st.inner.x = D - 1 → m.held ≤ s.bananas_sold) :
    receivePair D (s, nx) (p, st) = ((s.insert D (some p) st).1, nx) ∧
      (s.insert D (some p) st).2 = false ∧
      (s.insert D (some p) st).1.inner = s.inner ∧
      (s.insert D (some p) st).1.bananas_sold = s.bananas_sold ∧
      ((s.insert D (some p) st).1.solutions = s.solutions ∨
        (st.inner.x = D - 1 ∧ st.held = s.bananas_sold ∧
          (s.insert D (some p) st).1.solutions = s.solutions ++ [st.inner])) := by
  obtain ⟨hi, hf, ha⟩ := insert_occupied (p := some p) hm
  refine ⟨?_, hf, hi, ?_, ?_⟩
  · simp only [receivePair, hf]
    rfl
  · by_cases hx : st.inner.x = D - 1
    · have hle : st.held ≤ s.bananas_sold := le_trans hheld (hsold hx)
      simp only [States.insert, hm]
      rw [if_pos hx, if_neg (by (try simp); omega)]
      split_ifs <;> simp
    · simp only [States.insert, hm]
      rw [if_neg hx]
  · by_cases hx : st.inner.x = D - 1
    · have hle : st.held ≤ s.bananas_sold := le_trans hheld (hsold hx)
      by_cases heq : st.held = s.bananas_sold
      · right
        refine ⟨hx, heq, ?_⟩
        simp only [States.insert, hm]
        rw [if_pos hx, if_neg (by (try simp); omega), if_pos (by omega)]
      · left
        simp only [States.insert, hm]
        rw [if_pos hx, if_neg (by (try simp); omega), if_neg (by omega)]
    · left
      simp only [States.insert, hm]
      rw [if_neg hx]

/-- Shard state used to instantiate the amended C7 theorem: the stored
`held` is `3`, `bananas_sold` is `3`, and the incoming state holds `2`. -/
def c7wStates : States := ⟨[(⟨1, [0, 0]⟩, ⟨none, 3⟩)], 3, [⟨1, [0, 0]⟩], true⟩

def c7wSt : State := ⟨⟨1, [0, 0]⟩, 2⟩

def c7wPrev : State := ⟨⟨0, [0, 0]⟩, 3⟩

def c7wMeta : StateMeta := ⟨none, 3⟩

theorem receive_discard_amended_witness :
    lookupKey c7wSt.inner c7wStates.inner = some c7wMeta ∧ c7wSt.held ≤ c7wMeta.held ∧
      (c7wSt.inner.x = 2 - 1 → c7wMeta.held ≤ c7wStates.bananas_sold) ∧
      (receivePair 2 (c7wStates, []) (c7wPrev, c7wSt) =
          ((c7wStates.insert 2 (some c7wPrev) c7wSt).1, []) ∧
        (c7wStates.insert 2 (some c7wPrev) c7wSt).2 = false ∧
        (c7wStates.insert 2 (some c7wPrev) c7wSt).1.inner = c7wStates.inner ∧
        (c7wStates.insert 2 (some c7wPrev) c7wSt).1.bananas_sold =
          c7wStates.bananas_sold ∧
        ((c7wStates.insert 2 (some c7wPrev) c7wSt).1.solutions = c7wStates.solutions ∨
          (c7wSt.inner.x = 2 - 1 ∧ c7wSt.held = c7wStates.bananas_sold ∧
            (c7wStates.insert 2 (some c7wPrev) c7wSt).1.solutions =
              c7wStates.solutions ++ [c7wSt.inner]))) :=
  ⟨by decide, by decide, by decide,
    receive_discard_amended 2 c7wStates [] c7wPrev c7wSt c7wMeta (by decide) (by decide)
      (by decide)⟩

/-! The aggregation's order independence (C8). -/

/-- Two aggregates that agree on `bananas_sold` and whose winner lists are
permutations of each other. -/
def AggEquiv (a b : StateSet) : Prop :=
  a.bananas_sold = b.bananas_sold ∧ a.solutions.Perm b.solutions

theorem aggEquiv_refl (a : StateSet) : AggEquiv a a := ⟨rfl, List.Perm.refl _⟩

theorem aggEquiv_trans {a b c : StateSet} (h1 : AggEquiv a b) (h2 : AggEquiv b c) :
    AggEquiv a c := ⟨h1.1.trans h2.1, h1.2.trans h2.2⟩

theorem aggStep_sold (a : StateSet) (st : States) :
    (aggStep a st).bananas_sold = max a.bananas_sold st.bananas_sold := by
  simp only [aggStep]
  split_ifs <;> simp <;> omega

theorem aggStep_sols (a : StateSet) (st : States) :
    (aggStep a st).solutions =
      if a.bananas_sold < st.bananas_sold then st.solutions
      else if st.bananas_sold = a.bananas_sold then a.solutions ++ st.solutions
      else a.solutions := by
  simp only [aggStep]
  split_ifs <;> simp_all

theorem aggStep_congr {a b : StateSet} (h : AggEquiv a b) (st : States) :
    AggEquiv (aggStep a st) (aggStep b st) := by
  obtain ⟨h1, h2⟩ := h
  constructor
  · rw [aggStep_sold, aggStep_sold, h1]
  · rw [aggStep_sols, aggStep_sols, h1]
    split_ifs
    · exact List.Perm.refl _
    · exact h2.append_right _
    · exact h2

theorem aggStep_swap (a : StateSet) (x y : States) :
    AggEquiv (aggStep (aggStep a x) y) (aggStep (aggStep a y) x) := by
  constructor
  · rw [aggStep_sold, aggStep_sold, aggStep_sold, aggStep_sold]
    omega
  · rw [aggStep_sols, aggStep_sold, aggStep_sols, aggStep_sols, aggStep_sold, aggStep_sols]
    simp only [Nat.max_def]
    split_ifs <;>
      first
        | exact List.Perm.refl _
        | (exfalso; omega)
        | exact List.perm_append_comm
        | (rw [List.append_assoc, List.append_assoc]
           exact List.Perm.append_left _ List.perm_append_comm)

theorem aggFold_congr (l : List States) {a b : StateSet} (h : AggEquiv a b) :
    AggEquiv (l.foldl aggStep a) (l.foldl aggStep b) := by
  induction l generalizing a b with
  | nil => exact h
  | cons x t ih => exact ih (aggStep_congr h x)

theorem aggFold_perm {l1 l2 : List States} (hp : l1.Perm l2) {a b : StateSet}
    (h : AggEquiv a b) : AggEquiv (l1.foldl aggStep a) (l2.foldl aggStep b) := by
  induction hp generalizing a b with
  | nil => exact h
  | cons z hp ih => exact ih (aggStep_congr h z)
  | swap z w t =>
    simp only [List.foldl_cons]
    exact aggFold_congr t
      (aggEquiv_trans (aggStep_congr (aggStep_congr h w) z) (aggStep_swap b w z))
  | trans h12 h23 ih1 ih2 => exact aggEquiv_trans (ih1 h) (ih2 (aggEquiv_refl _))

/-- C8: the Result Aggregator's reduction (`StateSet::new`) is
order-independent — for every list of per-worker records and every
permutation of it, the aggregate has the same `best_delivered` and the same
collection (multiset) of winning keys. -/
theorem aggregation_order_independent (l1 l2 : List States) (hp : l1.Perm l2) :
    (StateSet.new l1).bananas_sold = (StateSet.new l2).bananas_sold ∧
      (StateSet.new l1).solutions.Perm (StateSet.new l2).solutions :=
  aggFold_perm hp (aggEquiv_refl _)

def aggR1 : States := ⟨[], 1, [⟨1, [0]⟩], true⟩

def aggR2 : States := ⟨[], 2, [⟨1, [1]⟩], true⟩

theorem aggregation_order_independent_witness :
    ([aggR1, aggR2] : List States).Perm [aggR2, aggR1] ∧
      ((StateSet.new [aggR1, aggR2]).bananas_sold =
          (StateSet.new [aggR2, aggR1]).bananas_sold ∧
        (StateSet.new [aggR1, aggR2]).solutions.Perm
          (StateSet.new [aggR2, aggR1]).solutions) :=
  ⟨List.Perm.swap aggR2 aggR1 [],
    aggregation_order_independent _ _ (List.Perm.swap aggR2 aggR1 [])⟩

/-- C9: the vote protocol terminates exactly at the first round in which
every one of the `W` workers' frontiers is simultaneously empty.  The
protocol is modelled per round using the ordering the barrier mutex
establishes (votes cast before the barrier are visible to the last arriver,
which resets them unless all `W` were cast): since a non-unanimous round
resets the counter, no stale votes from different rounds can assemble a
quorum, and a quorum of `W` votes in a round means every frontier was empty
at the start of that same round. -/
theorem termination_first_all_empty (W : Nat) (rounds : List (List Bool))
    (h : (rounds.all fun e => e.length == W) = true) :
    protoRun W 0 rounds = firstAllEmpty rounds := by
  induction rounds with
  | nil => rfl
  | cons e rest ih =>
    rw [List.all_cons, Bool.and_eq_true] at h
    obtain ⟨he, hrest⟩ := h
    have hlen : e.length = W := by simpa using he
    have hcount : List.count true e ≤ W := by
      rw [← hlen]
      exact List.count_le_length _ _
    have hiff : (e.all id = true) ↔ List.count true e = W := by
      rw [List.all_eq_true, ← hlen, List.count_eq_length]
      constructor
      · intro hall b hb
        exact (hall b hb).symm
      · intro hall b hb
        exact (hall b hb).symm
    show (if W ≤ 0 + e.count true then some 0
      else (protoRun W 0 rest).map fun i => i + 1) = firstAllEmpty (e :: rest)
    by_cases hall : e.all id = true
    · have hc : List.count true e = W := hiff.mp hall
      rw [if_pos (by omega), firstAllEmpty, if_pos hall]
    · have hc : List.count true e ≠ W := fun hc => hall (hiff.mpr hc)
      rw [if_neg (by omega), firstAllEmpty, if_neg hall, ih hrest]

theorem termination_first_all_empty_witness :
    (([[false, true], [true, true]] : List (List Bool)).all fun e => e.length == 2) = true ∧
      protoRun 2 0 [[false, true], [true, true]] =
        firstAllEmpty [[false, true], [true, true]] :=
  ⟨by decide, termination_first_all_empty 2 [[false, true], [true, true]] (by decide)⟩

end Cammy
